import Mathlib

/-!
Verification of the answer-extraction and scoring pipeline of the RebusVLMs
repository (`experiments/evaluate.py` and `debug_results.py`).

Strings are modelled as `List Char` (`Str`).  The Python string/regex
operations used by the source are implemented directly on `Str`, restricted to
their ASCII behaviour (the benchmark data is ASCII): `\s` is the six ASCII
whitespace characters, `\w` is `[a-zA-Z0-9_]`, `str.lower` maps `A`–`Z` to
`a`–`z`.  Python floats are modelled by exact rationals `ℚ`; the claims proved
here do not depend on rounding.  `re.sub`/`re.search`/`re.findall` are
implemented as left-to-right scans with the leftmost-match, non-overlapping
semantics of the `re` module; each definition documents the regex it
implements.  All definitions use structural recursion so that they evaluate
inside the kernel.
-/

/-- Python strings, modelled as lists of characters. -/
abbrev Str := List Char

/-- The characters of a Lean string literal, used to write concrete inputs. -/
def chars (s : String) : Str := s.data

/-- Python `\s` and `str.strip` whitespace, ASCII fragment:
space, tab, newline, carriage return, vertical tab, form feed. -/
def isSpacePy (c : Char) : Bool :=
  c = ' ' || c = '\t' || c = '\n' || c = '\r' || c = Char.ofNat 11 || c = Char.ofNat 12

/-- Python `\w` (ASCII fragment): letters, digits and underscore. -/
def isWordChar (c : Char) : Bool := c.isAlphanum || c = '_'

/-- Python `str.strip()`: drop whitespace from both ends. -/
def pyStrip (s : Str) : Str := ((s.dropWhile isSpacePy).reverse.dropWhile isSpacePy).reverse

/-- Python `str.lower()` (ASCII fragment). -/
def lowerStr (s : Str) : Str := s.map Char.toLower

/-- Whether `p` is a prefix of `s`. -/
def startsWithStr (p s : Str) : Bool := p.isPrefixOf s

/-- Whether `p` is a suffix of `s`. -/
def endsWithStr (p s : Str) : Bool := startsWithStr p.reverse s.reverse

/-- Python `p in s`: substring containment. -/
def containsStr (p : Str) : Str → Bool
  | [] => p.isEmpty
  | c :: rest => startsWithStr p (c :: rest) || containsStr p rest

/-- Helper of `splitWs`: `acc` is the current word, reversed. -/
def splitWsGo (acc : Str) : Str → List Str
  | [] => if acc.isEmpty then [] else [acc.reverse]
  | c :: cs =>
    if isSpacePy c then
      if acc.isEmpty then splitWsGo [] cs else acc.reverse :: splitWsGo [] cs
    else splitWsGo (c :: acc) cs

/-- Python `str.split()` with no argument: split on whitespace runs,
discarding empty fields. -/
def splitWs (s : Str) : List Str := splitWsGo [] s

/-- Python `str.split(sep)` for a one-character separator, keeping empty
fields (as `"a\nb".split("\n")` does). -/
def splitOnChar (sep : Char) (s : Str) : List Str :=
  s.foldr
    (fun c acc =>
      match acc with
      | [] => [[c]]
      | a :: as => if c = sep then [] :: a :: as else (c :: a) :: as)
    [[]]

/-- Python `" ".join(ws)`. -/
def joinWords : List Str → Str
  | [] => []
  | [w] => w
  | w :: ws => w ++ ' ' :: joinWords ws

/-- Python `len(s.split())`: the number of whitespace-separated words. -/
def wordCount (s : Str) : ℕ := (splitWs s).length

/-- Helper of `collapseWs`: `inRun` records whether the scan is inside a
whitespace run whose single replacement space has already been emitted. -/
def collapseWsGo (inRun : Bool) : Str → Str
  | [] => []
  | c :: cs =>
    if isSpacePy c then
      if inRun then collapseWsGo true cs else ' ' :: collapseWsGo true cs
    else c :: collapseWsGo false cs

/-- Implements `re.sub(r"\s+", " ", s)`: replace every maximal whitespace run by one
space. -/
def collapseWs (s : Str) : Str := collapseWsGo false s

/-- A character matched by `[^\w\s]`. -/
def isEdgePunct (c : Char) : Bool := !isWordChar c && !isSpacePy c

/-- Drop a maximal run of characters satisfying `p` from the right end. -/
def rstripRun (p : Char → Bool) (s : Str) : Str := (s.reverse.dropWhile p).reverse

/-- Implements `re.sub(r"^[^\w\s]+|[^\w\s]+$", "", s)`: remove the maximal leading run
of non-word non-space characters, and the maximal such trailing run.  The
trailing `$` also matches just before a single final newline, so a trailing
run sitting before a final `'\n'` is removed as well. -/
def stripEdgePunct (s : Str) : Str :=
  match (s.dropWhile isEdgePunct).getLast? with
  | some c =>
    if c = '\n' then rstripRun isEdgePunct (s.dropWhile isEdgePunct).dropLast ++ ['\n']
    else rstripRun isEdgePunct (s.dropWhile isEdgePunct)
  | none => s.dropWhile isEdgePunct

/-- A `\b` boundary to the left of a match: start of string or a non-word
character before it. -/
def boundaryL : Option Char → Bool
  | none => true
  | some c => !isWordChar c

/-- A `\b` boundary to the right of a match: end of string or a non-word
character after it. -/
def boundaryR : Str → Bool
  | [] => true
  | c :: _ => !isWordChar c

/-- The last character of the nonempty pattern `p :: ps`. -/
def lastChar (p : Char) (ps : Str) : Char := ps.getLastD p

/-- Scanner for `re.sub(r"\b<pat>\b", rep, s)` with a literal word
`pat = p :: ps`: left-to-right, non-overlapping; `prev` is the character of
the original string just before the current position (`none` at the start),
which is what `\b` inspects — replacements never affect matching, exactly as
in `re.sub`.  `fuel` only bounds the recursion; any `fuel ≥ s.length` gives
the scan's value. -/
def subWordGo (p : Char) (ps rep : Str) : ℕ → Option Char → Str → Str
  | 0, _, s => s
  | _ + 1, _, [] => []
  | fuel + 1, prev, c :: cs =>
    if boundaryL prev && startsWithStr (p :: ps) (c :: cs) &&
        boundaryR ((c :: cs).drop (ps.length + 1)) then
      rep ++ subWordGo p ps rep fuel (some (lastChar p ps)) ((c :: cs).drop (ps.length + 1))
    else c :: subWordGo p ps rep fuel (some c) cs

/-- Implements `re.sub(r"\b<pat>\b", rep, s)` for a literal nonempty word `pat`. -/
def subWord (pat rep s : Str) : Str :=
  match pat with
  | [] => s
  | p :: ps => subWordGo p ps rep s.length none s

/-- Helper of `subSep`, a two-state scanner: in the normal state `buf` holds
a pending whitespace run (which will be absorbed if a separator follows,
emitted verbatim otherwise); `swallow` is true while consuming the trailing
`\s*` of a match that was just replaced. -/
def subSepGo (sep : Char) : Str → Bool → Str → Str
  | buf, swallow, [] => if swallow then [] else buf
  | buf, swallow, c :: cs =>
    if swallow then
      if isSpacePy c then subSepGo sep [] true cs
      else if c = sep then ' ' :: subSepGo sep [] true cs
      else c :: subSepGo sep [] false cs
    else
      if isSpacePy c then subSepGo sep (buf ++ [c]) false cs
      else if c = sep then ' ' :: subSepGo sep [] true cs
      else buf ++ c :: subSepGo sep [] false cs

/-- Implements `re.sub(r"\s*<sep>\s*", " ", s)` for a literal single character `sep`
(the dash and underscore rules): a match is a (possibly empty) whitespace
run, the separator, and a (possibly empty) whitespace run, replaced by one
space; scanning is leftmost and non-overlapping. -/
def subSep (sep : Char) (s : Str) : Str := subSepGo sep [] false s

/-- One alternative of `re.sub(r"^(a|an|the)\s+", "", s)`: if `s` starts with
the article followed by at least one whitespace character, remove the article
and the maximal whitespace run; otherwise report no match. -/
def stripArticleOne (art : Str) (s : Str) : Option Str :=
  if startsWithStr art s then
    match s.drop art.length with
    | c :: cs => if isSpacePy c then some (cs.dropWhile isSpacePy) else none
    | [] => none
  else none

/-- Implements `re.sub(r"^(a|an|the)\s+", "", s)`: the alternation tries `a`, `an`,
`the` in order; anchored at the start, so at most one removal happens. -/
def stripLeadingArticle (s : Str) : Str :=
  match stripArticleOne (chars "a") s with
  | some r => r
  | none =>
    match stripArticleOne (chars "an") s with
    | some r => r
    | none =>
      match stripArticleOne (chars "the") s with
      | some r => r
      | none => s

/-- Function `normalize_idiom` from `experiments/evaluate.py`: lower-case and strip;
collapse whitespace runs; strip edge punctuation; whole-word rewrites
`and`→`&`, `u`→`you`, `r`→`are` (in the dict's insertion order); dash and
underscore rules; strip one leading article; final strip. -/
def normalize_idiom (idiom : Str) : Str :=
  if idiom.isEmpty then []
  else
    let n1 := pyStrip (lowerStr idiom)
    let n2 := collapseWs n1
    let n3 := stripEdgePunct n2
    let n4 := subWord (chars "and") (chars "&") n3
    let n5 := subWord (chars "u") (chars "you") n4
    let n6 := subWord (chars "r") (chars "are") n5
    let n7 := subSep '-' n6
    let n8 := subSep '_' n7
    let n9 := stripLeadingArticle n8
    pyStrip n9

example : normalize_idiom (chars "and") = chars "&" := by decide
example : normalize_idiom (chars "&") = chars "" := by decide
example : normalize_idiom (chars "A Drop in the Bucket") = chars "drop in the bucket" := by decide
example : normalize_idiom (chars "  KICK THE BUCKET  ") = chars "kick the bucket" := by decide
example : normalize_idiom (chars "Break-the-ice") = chars "break the ice" := by decide
example : normalize_idiom (chars "The piece of cake") = chars "piece of cake" := by decide
example : normalize_idiom (chars "spill_the_beans") = chars "spill the beans" := by decide
example : normalize_idiom (chars "hold   your    horses") = chars "hold your horses" := by decide
example : normalize_idiom (chars "u r OK") = chars "you are ok" := by decide

/-- The apostrophe character. -/
def apost : Char := Char.ofNat 39

/-- The backtick character. -/
def btick : Char := Char.ofNat 96

/-- The opening curly brace character. -/
def lbrace : Char := Char.ofNat 123

/-- The closing curly brace character. -/
def rbrace : Char := Char.ofNat 125

/-- Helper of the keyword-intro matcher: the group `(.+?)(?:\.|$)` without
`re.DOTALL`.  Starting from the current position, grow the (nonempty) content
one character at a time — `.` never matches `'\n'` — and stop at the first
terminator: a literal `'.'`, the end of the string, or (`$` without
`re.MULTILINE`) the position just before a single final `'\n'`. -/
def contentGo (acc : Str) : Str → Option Str
  | [] => if acc.isEmpty then none else some acc.reverse
  | c :: cs =>
    if !acc.isEmpty && c = '.' then some acc.reverse
    else if !acc.isEmpty && c = '\n' && cs.isEmpty then some acc.reverse
    else if c = '\n' then none
    else contentGo (c :: acc) cs

/-- The non-greedy content match `(.+?)(?:\.|$)` starting at `u`. -/
def contentFrom (u : Str) : Option Str := contentGo [] u

/-- Backtracking order of `\s*` before `(.+?)`: the greedy run of length `k`
is tried first, then shorter and shorter prefixes down to the empty one. -/
def introTryWs (r1 : Str) : ℕ → Option Str
  | 0 => contentFrom r1
  | k + 1 =>
    match contentFrom (r1.drop (k + 1)) with
    | some c => some c
    | none => introTryWs r1 k

/-- After an intro phrase matched, parse `[:.]?\s*(.+?)(?:\.|$)`: the
optional punctuation is consumed greedily, then the whitespace run, with the
regex backtracking order (shrink `\s*` first, then give the `[:.]?` back). -/
def introAfter (rest : Str) : Option Str :=
  match rest with
  | [] => none
  | c :: cs =>
    if c = ':' || c = '.' then
      match introTryWs cs (cs.takeWhile isSpacePy).length with
      | some content => some content
      | none => contentFrom rest
    else introTryWs rest (rest.takeWhile isSpacePy).length

/-- The first alternative of `alts` matching case-insensitively at the start
of `s` (regex alternation tries alternatives in order; the alternation lists
used here are pairwise incompatible at any one position, so this is exact). -/
def firstAlt (alts : List Str) (s : Str) : Option Str :=
  alts.find? (fun a => lowerStr (s.take a.length) = a)

/-- The `re.search` scan for `(?:alts)[:.]?\s*(.+?)(?:\.|$)` with `re.IGNORECASE`:
try every start position left to right; the returned value is `group(1)` in
the original case. -/
def searchIntroGo (alts : List Str) : Str → Option Str
  | [] => none
  | c :: cs =>
    match firstAlt alts (c :: cs) with
    | some a =>
      match introAfter ((c :: cs).drop a.length) with
      | some content => some content
      | none => searchIntroGo alts cs
    | none => searchIntroGo alts cs

/-- Implements `re.search(r"(?:alt1|alt2|...)[:.]?\s*(.+?)(?:\.|$)", t, re.IGNORECASE)`,
returning the stripped-later `group(1)`. -/
def searchIntro (alts : List Str) (t : Str) : Option Str := searchIntroGo alts t

/-- Implements `re.search(r"\{\{\{([^}]+?)\}\}\}", t, re.DOTALL)`: at each position in
turn, match `{{{`, then the run of non-`}` characters (nonempty — the
non-greedy `+?` must still reach the closing braces, and since the content
class excludes `}` the run is exactly the maximal one), then `}}}`. -/
def findTripleBrace : Str → Option Str
  | [] => none
  | c :: cs =>
    if startsWithStr [lbrace, lbrace, lbrace] (c :: cs) then
      let run := ((c :: cs).drop 3).takeWhile (fun d => d ≠ rbrace)
      if !run.isEmpty &&
          startsWithStr [rbrace, rbrace, rbrace] (((c :: cs).drop 3).drop run.length) then
        some run
      else findTripleBrace cs
    else findTripleBrace cs

/-- The `re.findall` state machine for `q([^q]+)q`: `none` = outside a quote,
`some acc` = after an opening quote with reversed content `acc`; a closing
quote with empty content re-opens (the scan resumes at that quote), matching
the `re` module's advance-by-one on a failed position. -/
def quotedGo (q : Char) : Option Str → Str → List Str
  | _, [] => []
  | none, c :: cs => if c = q then quotedGo q (some []) cs else quotedGo q none cs
  | some acc, c :: cs =>
    if c = q then
      if acc.isEmpty then quotedGo q (some []) cs
      else acc.reverse :: quotedGo q none cs
    else quotedGo q (some (c :: acc)) cs

/-- Implements `re.findall(r"q([^q]+)q", t)` for a quote character `q`. -/
def findAllQuoted (q : Char) (t : Str) : List Str := quotedGo q none t

/-- Alternatives of the first prefix-removal regex of `clean_extracted_idiom`. -/
def cleanPrefixAlts1 : List Str :=
  [chars "the idiom is", chars "idiom is", chars "answer is", chars "solution is",
   chars "this is", chars "it is"]

/-- Alternatives of the second prefix-removal regex of `clean_extracted_idiom`. -/
def cleanPrefixAlts2 : List Str :=
  [chars "i think", chars "i believe", chars "this looks like", chars "this appears to be"]

/-- Alternatives of the third prefix-removal regex of `clean_extracted_idiom`. -/
def cleanPrefixAlts3 : List Str := [chars "the answer is", chars "the solution is"]

/-- First alternation of the fourth prefix-removal regex of
`clean_extracted_idiom`. -/
def cleanPrefixAlts4a : List Str := [chars "this idiom", chars "this rebus", chars "this puzzle"]

/-- Second alternation of the fourth prefix-removal regex of
`clean_extracted_idiom`. -/
def cleanPrefixAlts4b : List Str :=
  [chars "represents", chars "means", chars "shows", chars "is"]

/-- Consume `[:.]?\s*` greedily.  No backtracking is needed where this is
used: either nothing follows in the pattern, or the continuation is an
alternation of phrases starting with a letter, which can never match at a
position holding the punctuation or whitespace given back by backtracking. -/
def dropOptPunctWs (s : Str) : Str :=
  (match s with
   | c :: cs => if c = ':' || c = '.' then cs else c :: cs
   | [] => []).dropWhile isSpacePy

/-- Implements `re.sub("^(?:alts)[:.]?\s*", "", s, flags=re.IGNORECASE)`: anchored, so
at most one removal; the remainder keeps its original case. -/
def stripIntroSub (alts : List Str) (s : Str) : Str :=
  match firstAlt alts s with
  | some a => dropOptPunctWs (s.drop a.length)
  | none => s

/-- The fourth prefix-removal regex of `clean_extracted_idiom`:
`^(?:this idiom|this rebus|this puzzle)[:.]?\s*(?:represents|means|shows|is)[:.]?\s*`
with `re.IGNORECASE`; if the second alternation fails the whole pattern
fails and nothing is removed. -/
def stripIntroSub4 (s : Str) : Str :=
  match firstAlt cleanPrefixAlts4a s with
  | some a =>
    let r := dropOptPunctWs (s.drop a.length)
    match firstAlt cleanPrefixAlts4b r with
    | some b => dropOptPunctWs (r.drop b.length)
    | none => s
  | none => s

/-- Alternatives of the first suffix-removal regex of `clean_extracted_idiom`. -/
def suffixWords1 : List Str := [chars "idiom", chars "rebus", chars "puzzle", chars "phrase"]

/-- Alternatives of the second suffix-removal regex of `clean_extracted_idiom`. -/
def suffixWords2 : List Str := [chars "is the answer", chars "is the solution"]

/-- Implements `re.sub(r"\s*(?:alts)$", "", s, flags=re.IGNORECASE)`: the match is an
alternative sitting at the end of the string (or just before a single final
`'\n'`, which `$` also accepts) together with the maximal whitespace run
before it; no alternative here is a suffix of another, so the match is
unique. -/
def stripSuffixWords (alts : List Str) (s : Str) : Str :=
  let core : Str := if s.getLast? = some '\n' then s.dropLast else s
  let nl : Str := if s.getLast? = some '\n' then ['\n'] else []
  match alts.find? (fun w => endsWithStr w (lowerStr core)) with
  | some w => rstripRun isSpacePy (core.take (core.length - w.length)) ++ nl
  | none => s

/-- Implements `re.sub(r"\s*(?:\.|!|\?)$", "", s, flags=re.IGNORECASE)`: one terminal
punctuation character (at the end or just before a single final `'\n'`) and
the whitespace run before it. -/
def stripSuffixPunct (s : Str) : Str :=
  let core : Str := if s.getLast? = some '\n' then s.dropLast else s
  let nl : Str := if s.getLast? = some '\n' then ['\n'] else []
  match core.getLast? with
  | some c =>
    if c = '.' || c = '!' || c = '?' then rstripRun isSpacePy core.dropLast ++ nl else s
  | none => s

/-- Remove one layer of wrapping double or single quotes (`s[1:-1]`, which on
the one-character string consisting of a single quote yields the empty
string, exactly as in Python). -/
def unwrapQuotes (s : Str) : Str :=
  if (s.head? = some '"' && s.getLast? = some '"') ||
      (s.head? = some apost && s.getLast? = some apost) then
    (s.drop 1).dropLast
  else s

/-- Remove `{{{`/`}}}` if they wrap the entire string (`cleaned[3:-3].strip()`). -/
def unwrapTripleBraces (s : Str) : Str :=
  if startsWithStr [lbrace, lbrace, lbrace] s && endsWithStr [rbrace, rbrace, rbrace] s then
    pyStrip ((s.drop 3).take (s.length - 6))
  else s

/-- Function `clean_extracted_idiom` from `experiments/evaluate.py`: strip; unwrap a
whole-string `{{{...}}}`; the four prefix-removal substitutions; the three
suffix-removal substitutions; strip; unwrap one layer of quotes; strip. -/
def clean_extracted_idiom (text : Str) : Str :=
  if text.isEmpty then []
  else
    let c0 := pyStrip text
    let c1 := unwrapTripleBraces c0
    let c2 := stripIntroSub cleanPrefixAlts1 c1
    let c3 := stripIntroSub cleanPrefixAlts2 c2
    let c4 := stripIntroSub cleanPrefixAlts3 c3
    let c5 := stripIntroSub4 c4
    let c6 := stripSuffixWords suffixWords1 c5
    let c7 := stripSuffixWords suffixWords2 c6
    let c8 := stripSuffixPunct c7
    pyStrip (unwrapQuotes (pyStrip c8))

/-- The fixed lexicon of `is_description_text`. -/
def descriptionIndicators : List Str :=
  [chars "this idiom", chars "this rebus", chars "this puzzle", chars "this image",
   chars "this picture", chars "the idiom", chars "the rebus", chars "the puzzle",
   chars "the image", chars "the picture", chars "represents", chars "means that",
   chars "refers to", chars "indicates", chars "suggests", chars "thinking step by step",
   chars "let me think", chars "analyzing", chars "looking at", chars "i can see",
   chars "i notice", chars "this shows", chars "this depicts"]

/-- Function `is_description_text` from `experiments/evaluate.py`: empty text counts
as description; otherwise any lexicon entry occurring as a substring of the
lower-cased text makes it a description. -/
def is_description_text (text : Str) : Bool :=
  if text.isEmpty then true
  else descriptionIndicators.any (fun ind => containsStr ind (lowerStr text))

/-- Function `is_likely_idiom` from `experiments/evaluate.py`: false when empty or the
stripped text is shorter than 3 characters, longer than 100 characters, has a
word count outside `[1, 10]`, or is description text. -/
def is_likely_idiom (text : Str) : Bool :=
  if text.isEmpty || (pyStrip text).length < 3 then false
  else
    let t := pyStrip text
    if t.length > 100 then false
    else if wordCount t < 1 || wordCount t > 10 then false
    else if is_description_text t then false
    else true

/-- The article test of `select_best_idiom_candidate`:
`any(word in candidate.lower() for word in ["the", "a", "an"])` — a
substring test, not a word test. -/
def containsArticleSub (c : Str) : Bool :=
  containsStr (chars "the") (lowerStr c) || containsStr (chars "a") (lowerStr c) ||
    containsStr (chars "an") (lowerStr c)

/-- The additive score of one candidate in `select_best_idiom_candidate`:
10 for a word count of 3–6, otherwise 5 for a word count up to 8, otherwise
0; plus 5 if not description text; plus 2 for the article substring test. -/
def scoreCandidate (c : Str) : ℕ :=
  (if 3 ≤ wordCount c ∧ wordCount c ≤ 6 then 10 else if wordCount c ≤ 8 then 5 else 0) +
    (if !is_description_text c then 5 else 0) +
    (if containsArticleSub c then 2 else 0)

/-- Function `select_best_idiom_candidate` from `experiments/evaluate.py`: the sole
candidate if exactly one; otherwise sort the scored candidates descending by
score — Python's `sort(key=..., reverse=True)` is stable, and a stable sort
is uniquely determined, so `List.insertionSort` with the reflexive descending
relation reproduces it — and take the first. -/
def select_best_idiom_candidate : List Str → Str
  | [] => []
  | [c] => c
  | c1 :: c2 :: cs =>
    let scored := (c1 :: c2 :: cs).map (fun c => (scoreCandidate c, c))
    let sorted := scored.insertionSort (fun x y => y.1 ≤ x.1)
    (sorted.headD (0, [])).2

/-- The tokenizer of `calculate_token_f1`: `set(normalize_idiom(text).split())`. -/
def tokenizeForF1 (text : Str) : Finset Str := (splitWs (normalize_idiom text)).toFinset

/-- Function `calculate_token_f1` from `experiments/evaluate.py`, with Python floats
modelled by exact rationals: 1 when both token sets are empty, 0 when exactly
one is, otherwise the harmonic mean of set precision and recall. -/
def calculate_token_f1 (ground_truth prediction : Str) : ℚ :=
  let gt_tokens := tokenizeForF1 ground_truth
  let pred_tokens := tokenizeForF1 prediction
  if gt_tokens = ∅ ∧ pred_tokens = ∅ then 1
  else if gt_tokens = ∅ ∨ pred_tokens = ∅ then 0
  else
    let inter := (gt_tokens ∩ pred_tokens).card
    let precision : ℚ := if pred_tokens ≠ ∅ then (inter : ℚ) / pred_tokens.card else 0
    let recallVal : ℚ := if gt_tokens ≠ ∅ then (inter : ℚ) / gt_tokens.card else 0
    if precision + recallVal = 0 then 0 else 2 * (precision * recallVal) / (precision + recallVal)

/-- The extraction stages of the cascade.  Modelled from the spec: the source
`extract_idiom` returns a bare string; the spec's `ExtractionOutcome` stage
taxonomy (§3) is attached here to record which cascade stage produced the
result, mapping pattern 1 to `BRACKET_MARKER`, 2 to `QUOTED`, 3 to
`KEYWORD_INTRO`, 4 to `STANDALONE_LINE`, 5 to `FIRST_SENTENCE`, 6 to
`NGRAM_SCAN`, and both the top empty-input check and the final fallback to
`FALLBACK_RAW`. -/
inductive Stage
  | BRACKET_MARKER
  | QUOTED
  | KEYWORD_INTRO
  | STANDALONE_LINE
  | FIRST_SENTENCE
  | NGRAM_SCAN
  | FALLBACK_RAW
deriving DecidableEq, Repr

/-- The spec's `ExtractionOutcome`: the extracted text plus the stage that
produced it. -/
structure ExtractionOutcome where
  extracted_text : Str
  stage_used : Stage
deriving DecidableEq, Repr

/-- Alternatives of the first keyword-intro regex of `extract_idiom`. -/
def introAltsA : List Str :=
  [chars "the idiom is", chars "idiom is", chars "answer is", chars "solution is"]

/-- Alternatives of the second keyword-intro regex of `extract_idiom`. -/
def introAltsB : List Str := [chars "this idiom is", chars "it is", chars "this is"]

/-- Alternatives of the third keyword-intro regex of `extract_idiom`. -/
def introAltsC : List Str := [chars "represents", chars "means"]

/-- One keyword-intro pattern: search, strip the group, clean, and keep the
result only if plausible. -/
def tryIntroPattern (alts : List Str) (t : Str) : Option Str :=
  match searchIntro alts t with
  | some cand =>
    let cleaned := clean_extracted_idiom (pyStrip cand)
    if is_likely_idiom cleaned then some cleaned else none
  | none => none

/-- Pattern 2's loop over all quoted matches: first cleaned match passing the
plausibility predicate. -/
def firstPlausibleQuoted : List Str → Option Str
  | [] => none
  | m :: ms =>
    let cleaned := clean_extracted_idiom m
    if is_likely_idiom cleaned then some cleaned else firstPlausibleQuoted ms

/-- Pattern 4's loop over the nonempty stripped lines. -/
def stage4Lines : List Str → Option Str
  | [] => none
  | line :: rest =>
    if !is_description_text line then
      let cleaned := clean_extracted_idiom line
      if is_likely_idiom cleaned then some cleaned else stage4Lines rest
    else stage4Lines rest

/-- Pattern 6's candidate generation: for `i` in `range(len(words))` and `j`
in `range(i+3, min(i+9, len(words)+1))`, clean the phrase `words[i:j]` and
keep it when plausible. -/
def ngramCandidates (ws2 : List Str) : List Str :=
  (List.range ws2.length).flatMap fun i =>
    ((List.range (min (i + 9) (ws2.length + 1) - (i + 3))).map (· + (i + 3))).filterMap fun j =>
      let cleaned := clean_extracted_idiom (joinWords ((ws2.drop i).take (j - i)))
      if is_likely_idiom cleaned then some cleaned else none

/-- Pattern 6 and the final fallback of `extract_idiom`. -/
def extractStage6 (t : Str) : ExtractionOutcome :=
  let cands := ngramCandidates (splitWs t)
  if cands.isEmpty then ⟨clean_extracted_idiom t, .FALLBACK_RAW⟩
  else ⟨select_best_idiom_candidate cands, .NGRAM_SCAN⟩

/-- Pattern 5 of `extract_idiom`: the first field of
`re.split(r"[.!?]+", text)`, stripped, cleaned and tested. -/
def extractStage5 (t : Str) : ExtractionOutcome :=
  let first := pyStrip (t.takeWhile (fun c => !(c = '.' || c = '!' || c = '?')))
  let cleaned := clean_extracted_idiom first
  if is_likely_idiom cleaned then ⟨cleaned, .FIRST_SENTENCE⟩ else extractStage6 t

/-- Pattern 4 of `extract_idiom`: the nonempty stripped lines. -/
def extractStage4 (t : Str) : ExtractionOutcome :=
  let lines := ((splitOnChar '\n' t).map pyStrip).filter (fun l => !l.isEmpty)
  match stage4Lines lines with
  | some c => ⟨c, .STANDALONE_LINE⟩
  | none => extractStage5 t

/-- Pattern 3 of `extract_idiom`: the three keyword-intro regexes in order. -/
def extractStage3 (t : Str) : ExtractionOutcome :=
  match tryIntroPattern introAltsA t with
  | some c => ⟨c, .KEYWORD_INTRO⟩
  | none =>
    match tryIntroPattern introAltsB t with
    | some c => ⟨c, .KEYWORD_INTRO⟩
    | none =>
      match tryIntroPattern introAltsC t with
      | some c => ⟨c, .KEYWORD_INTRO⟩
      | none => extractStage4 t

/-- Pattern 2 of `extract_idiom`: double-quoted, then single-quoted, then
backtick-quoted matches. -/
def extractStage2 (t : Str) : ExtractionOutcome :=
  match firstPlausibleQuoted
      (findAllQuoted '"' t ++ findAllQuoted apost t ++ findAllQuoted btick t) with
  | some c => ⟨c, .QUOTED⟩
  | none => extractStage3 t

/-- Pattern 1 of `extract_idiom`: the `{{{...}}}` marker.  A plausible
cleaned content is returned; an implausible one is still returned raw
(stripped) when its word count is between 2 and 8; otherwise the cascade
falls through. -/
def extractStage1 (t : Str) : ExtractionOutcome :=
  match findTripleBrace t with
  | some inner =>
    let extracted := pyStrip inner
    if !extracted.isEmpty then
      let cleaned := clean_extracted_idiom extracted
      if is_likely_idiom cleaned then ⟨cleaned, .BRACKET_MARKER⟩
      else if 2 ≤ wordCount extracted ∧ wordCount extracted ≤ 8 then
        ⟨pyStrip extracted, .BRACKET_MARKER⟩
      else extractStage2 t
    else extractStage2 t
  | none => extractStage2 t

/-- Function `extract_idiom` from `experiments/evaluate.py`, instrumented with the
spec's stage tags: empty or whitespace-only input short-circuits to the empty
string; otherwise the stripped text runs through the six-pattern cascade. -/
def extract_outcome (text : Str) : ExtractionOutcome :=
  if text.isEmpty || (pyStrip text).isEmpty then ⟨[], .FALLBACK_RAW⟩
  else extractStage1 (pyStrip text)

/-- The string returned by `extract_idiom`. -/
def extract_idiom (text : Str) : Str := (extract_outcome text).extracted_text

example : extract_idiom (chars "The idiom is \"a drop in the bucket\".") =
    chars "a drop in the bucket" := by decide
example : extract_idiom (chars "The idiom is: piece of cake") = chars "piece of cake" := by
  decide
example : extract_idiom (chars "The answer is hold your horses") = chars "hold your horses" := by
  decide
example : extract_idiom (chars "") = chars "" := by decide
example : extract_idiom (chars "This rebus represents spill the beans, so spill beans") =
    chars "spill the beans, so spill beans" := by decide
example : extract_idiom (chars "spill the beans idiom") = chars "spill the beans" := by decide
example : (extract_outcome (chars "spill the beans idiom")).stage_used = .STANDALONE_LINE := by
  decide

/-- One record of `results.json`: a Python dict whose fields may be missing.
`load_results` promises `image_id`, `ground_truth` and `prediction`, but
`evaluate` reads `ground_truth` and `prediction` with bare subscripting,
which raises `KeyError` when absent. -/
structure SampleRec where
  image_id : Option Str
  ground_truth : Option Str
  prediction : Option Str
deriving DecidableEq, Repr

/-- One entry of the `extraction_debug` list built by `evaluate` when
`debug` is set. -/
structure DbgEntry where
  image_id : Str
  ground_truth : Str
  raw_prediction : Str
  extracted : Str
deriving DecidableEq, Repr

/-- A Python value stored in the metrics dict.  `nanv` is the IEEE NaN
produced by `numpy` on an empty mean; `fmtP v` stands for the f-string
rendering of the number `v` (the rendered text itself is not modelled — no
claim depends on it). -/
inductive PyVal where
  | int (n : ℤ)
  | float (q : ℚ)
  | nanv
  | boolv (b : Bool)
  | fmtP (v : PyVal)
  | dbgList (l : List DbgEntry)
deriving DecidableEq, Repr

/-- Python dict subscripting `r[name]`: the value, or a raised `KeyError`. -/
def fieldOr (v : Option Str) (name : Str) : Except Str Str :=
  match v with
  | some s => .ok s
  | none => .error (chars "KeyError: " ++ name)

/-- Implements `prediction[:200] + "..." if len(prediction) > 200 else prediction`. -/
def truncate200 (s : Str) : Str := if s.length > 200 then s.take 200 ++ chars "..." else s

/-- One `extraction_debug` entry, with
`r.get("image_id", f"sample_{i}")` as its id. -/
def mkDbgEntry (r : SampleRec) (i : ℕ) (gt pred extracted : Str) : DbgEntry :=
  { image_id := r.image_id.getD (chars "sample_" ++ chars (toString i))
    ground_truth := gt
    raw_prediction := truncate200 pred
    extracted := extracted }

/-- The per-record loop of `evaluate`: builds `y_true`, `y_pred`,
`y_pred_extracted` and `extraction_debug` in input order; a record missing
`ground_truth` or `prediction` raises, aborting the rest of the loop. -/
def evalLoop (use_extraction debug : Bool) :
    ℕ → List SampleRec → Except Str (List Str × List Str × List Str × List DbgEntry)
  | _, [] => .ok ([], [], [], [])
  | i, r :: rs => do
    let gt ← fieldOr r.ground_truth (chars "ground_truth")
    let pred ← fieldOr r.prediction (chars "prediction")
    let (ts, ps, es, dbg) ← evalLoop use_extraction debug (i + 1) rs
    if use_extraction then
      let extracted := extract_idiom pred
      let dbg2 := if debug && i < 5 then mkDbgEntry r i gt pred extracted :: dbg else dbg
      .ok (gt :: ts, pred :: ps, extracted :: es, dbg2)
    else
      .ok (gt :: ts, pred :: ps, es, dbg)

/-- The number of positions where the two lists agree. -/
def countEqPairs (xs ys : List Str) : ℕ := (xs.zip ys).countP (fun p => p.1 == p.2)

/-- Modelled from scikit-learn's `accuracy_score` on two equal-length lists
of string labels: the fraction of positions with equal labels.  On empty
input `sklearn` reaches `np.average` of an empty array, which is NaN (a
`RuntimeWarning`, not an exception). -/
def accuracy_score (y_true y_pred : List Str) : PyVal :=
  if y_true.isEmpty then .nanv
  else .float ((countEqPairs y_true y_pred : ℚ) / (y_true.length : ℚ))

/-- Function `evaluate` from `experiments/evaluate.py`.  The returned metrics dict is
modelled as an association list in the insertion order of the source; Python
floats are exact rationals, and the `x if xs else 0` guards keep the Python
`int`/`float` distinction (`.int 0` on an empty batch).
`extraction_improvement = exact_match - raw_exact_match` subtracts two ints
(both 0) on an empty batch and two floats otherwise. -/
def evaluate (results : List SampleRec) (use_f1 use_extraction debug : Bool) :
    Except Str (List (Str × PyVal)) := do
  let (y_true, y_pred, y_pred_extracted, extraction_debug) ←
    evalLoop use_extraction debug 0 results
  let eval_predictions := if use_extraction then y_pred_extracted else y_pred
  let normalized_true := y_true.map normalize_idiom
  let normalized_pred := eval_predictions.map normalize_idiom
  let exact_matches := countEqPairs normalized_true normalized_pred
  let exact_match : PyVal :=
    if normalized_true.isEmpty then .int 0
    else .float ((exact_matches : ℚ) / (normalized_true.length : ℚ))
  let raw_accuracy := accuracy_score y_true eval_predictions
  let base : List (Str × PyVal) :=
    [(chars "total_samples", .int results.length),
     (chars "exact_matches", .int exact_matches),
     (chars "exact_match_accuracy", exact_match),
     (chars "raw_accuracy", raw_accuracy),
     (chars "extraction_enabled", .boolv use_extraction),
     (chars "exact_match_accuracy_formatted", .fmtP exact_match),
     (chars "raw_accuracy_formatted", .fmtP raw_accuracy)]
  let withExtr : List (Str × PyVal) :=
    if use_extraction then
      let raw_normalized_pred := y_pred.map normalize_idiom
      let raw_exact_matches := countEqPairs normalized_true raw_normalized_pred
      let raw_exact_match : PyVal :=
        if normalized_true.isEmpty then .int 0
        else .float ((raw_exact_matches : ℚ) / (normalized_true.length : ℚ))
      let extraction_improvement : PyVal :=
        match exact_match, raw_exact_match with
        | .float a, .float b => .float (a - b)
        | _, _ => .int 0
      base ++
        [(chars "raw_exact_matches", .int raw_exact_matches),
         (chars "raw_exact_match_accuracy", raw_exact_match),
         (chars "extraction_improvement", extraction_improvement),
         (chars "raw_exact_match_accuracy_formatted", .fmtP raw_exact_match),
         (chars "extraction_improvement_formatted", .fmtP extraction_improvement)]
    else base
  let withF1 : List (Str × PyVal) :=
    if use_f1 then
      let token_f1s := (y_true.zip eval_predictions).map (fun p => calculate_token_f1 p.1 p.2)
      let macro_f1 : PyVal :=
        if token_f1s.isEmpty then .float 0
        else .float (token_f1s.sum / (token_f1s.length : ℚ))
      withExtr ++ [(chars "macro_f1", macro_f1), (chars "macro_f1_formatted", .fmtP macro_f1)]
    else withExtr
  let final :=
    if debug then withF1 ++ [(chars "extraction_debug", .dbgList extraction_debug)]
    else withF1
  .ok final

/-- Lookup in the metrics dict (keys are unique by construction). -/
def dictGet (k : Str) : List (Str × PyVal) → Option PyVal
  | [] => none
  | p :: ps => if p.1 = k then some p.2 else dictGet k ps

/-- One record of `debug_extraction_for_sample` from `debug_results.py`. -/
structure DebugInfo where
  sample_id : ℕ
  image_id : Str
  ground_truth : Str
  raw_prediction : Str
  extracted_prediction : Str
  normalized_gt : Str
  normalized_raw : Str
  normalized_extracted : Str
  raw_match : Bool
  extracted_match : Bool
  extraction_helped : Bool
  extraction_hurt : Bool
deriving DecidableEq, Repr

/-- Function `debug_extraction_for_sample` from `debug_results.py`: extraction and
normalization of one sample, plus the helped/hurt flags
(`extraction_helped = extracted_match and not raw_match`, and the inverse
for `extraction_hurt`). -/
def debug_extraction_for_sample (sample : SampleRec) (sample_id : ℕ) : Except Str DebugInfo := do
  let ground_truth ← fieldOr sample.ground_truth (chars "ground_truth")
  let raw_prediction ← fieldOr sample.prediction (chars "prediction")
  let extracted_prediction := extract_idiom raw_prediction
  let normalized_gt := normalize_idiom ground_truth
  let normalized_pred := normalize_idiom extracted_prediction
  let normalized_raw := normalize_idiom raw_prediction
  let raw_match := normalized_gt == normalized_raw
  let extracted_match := normalized_gt == normalized_pred
  .ok
    { sample_id := sample_id
      image_id := sample.image_id.getD (chars "sample_" ++ chars (toString sample_id))
      ground_truth := ground_truth
      raw_prediction := raw_prediction
      extracted_prediction := extracted_prediction
      normalized_gt := normalized_gt
      normalized_raw := normalized_raw
      normalized_extracted := normalized_pred
      raw_match := raw_match
      extracted_match := extracted_match
      extraction_helped := extracted_match && !raw_match
      extraction_hurt := raw_match && !extracted_match }

/-- The report of `analyze_extraction_performance` from `debug_results.py`. -/
structure AnalysisReport where
  total_samples : ℕ
  raw_accuracy : ℚ
  extracted_accuracy : ℚ
  extraction_helped_count : ℕ
  extraction_hurt_count : ℕ
  net_improvement : ℤ
  improvement_rate : ℚ
deriving DecidableEq, Repr

/-- Function `analyze_extraction_performance` from `debug_results.py`: tallies of the
per-sample match flags, with all rates guarded to 0 on an empty input. -/
def analyze_extraction_performance (debug_results : List DebugInfo) : AnalysisReport :=
  let total_samples := debug_results.length
  let raw_correct := debug_results.countP (·.raw_match)
  let extracted_correct := debug_results.countP (·.extracted_match)
  let extraction_helped := debug_results.countP (·.extraction_helped)
  let extraction_hurt := debug_results.countP (·.extraction_hurt)
  { total_samples := total_samples
    raw_accuracy := if total_samples > 0 then (raw_correct : ℚ) / total_samples else 0
    extracted_accuracy :=
      if total_samples > 0 then (extracted_correct : ℚ) / total_samples else 0
    extraction_helped_count := extraction_helped
    extraction_hurt_count := extraction_hurt
    net_improvement := (extraction_helped : ℤ) - (extraction_hurt : ℤ)
    improvement_rate :=
      if total_samples > 0 then ((extracted_correct : ℚ) - (raw_correct : ℚ)) / total_samples
      else 0 }

/-- Decidable equality for `Except`, so that concrete runs of the fallible
`evaluate` can be checked by `decide`. -/
instance {e a : Type} [DecidableEq e] [DecidableEq a] : DecidableEq (Except e a) := fun x y =>
  match x, y with
  | .ok u, .ok v =>
    if h : u = v then isTrue (by rw [h]) else isFalse (by intro hh; cases hh; exact h rfl)
  | .error u, .error v =>
    if h : u = v then isTrue (by rw [h]) else isFalse (by intro hh; cases hh; exact h rfl)
  | .ok _, .error _ => isFalse (by intro hh; cases hh)
  | .error _, .ok _ => isFalse (by intro hh; cases hh)

/-- A sample whose extraction fixes an intro-phrase-wrapped answer. -/
def helpedSample : SampleRec :=
  ⟨none, some (chars "piece of cake"), some (chars "The idiom is: piece of cake")⟩

/-- A sample whose extraction truncates an exactly-correct raw answer. -/
def hurtSample : SampleRec :=
  ⟨none, some (chars "spill the beans idiom"), some (chars "spill the beans idiom")⟩

example :
    (debug_extraction_for_sample helpedSample 0).map (fun d => (d.extraction_helped, d.extraction_hurt)) =
      .ok (true, false) := by decide
example :
    (debug_extraction_for_sample hurtSample 1).map (fun d => (d.extraction_helped, d.extraction_hurt)) =
      .ok (false, true) := by decide
example :
    (evaluate [] true true false).map (dictGet (chars "raw_accuracy")) =
      .ok (some .nanv) := by decide
example :
    (evaluate [] true true false).map (dictGet (chars "exact_match_accuracy")) =
      .ok (some (.int 0)) := by decide
example :
    (evaluate [] true true false).map (dictGet (chars "macro_f1")) =
      .ok (some (.float 0)) := by decide
example :
    (evaluate [⟨none, none, some (chars "x")⟩] true true false) =
      .error (chars "KeyError: ground_truth") := by decide

/-- The head of a `dropWhile` result never satisfies the dropped predicate. -/
theorem head_dropWhile_false (p : Char → Bool) (l : Str) :
    ∀ c, (l.dropWhile p).head? = some c → p c = false := by
  induction l with
  | nil => intro c h; simp [List.dropWhile] at h
  | cons d ds ih =>
    intro c h
    by_cases hd : p d
    · rw [List.dropWhile_cons, if_pos hd] at h
      exact ih c h
    · rw [List.dropWhile_cons, if_neg hd] at h
      simp at h
      rw [← h]
      simpa using hd

/-- Lemma: `dropWhile` is the identity when the head does not satisfy the predicate. -/
theorem dropWhile_eq_self_of_head (p : Char → Bool) (l : Str)
    (h : ∀ c, l.head? = some c → p c = false) : l.dropWhile p = l := by
  cases l with
  | nil => rfl
  | cons d ds =>
    rw [List.dropWhile_cons, if_neg]
    simp [h d rfl]

/-- A nonempty `dropWhile` result has the same last element as its input. -/
theorem getLast?_dropWhile (p : Char → Bool) (l : Str) (h : l.dropWhile p ≠ []) :
    (l.dropWhile p).getLast? = l.getLast? := by
  obtain ⟨pre, hpre⟩ := List.dropWhile_suffix (l := l) (p := p)
  conv_rhs => rw [← hpre]
  exact (List.getLast?_append_of_ne_nil pre h).symm

/-- Python `strip` is idempotent. -/
theorem pyStrip_idem (s : Str) : pyStrip (pyStrip s) = pyStrip s := by
  unfold pyStrip
  set A := (s.dropWhile isSpacePy).reverse with hA
  set B := A.dropWhile isSpacePy with hB
  have h1 : B.reverse.dropWhile isSpacePy = B.reverse := by
    apply dropWhile_eq_self_of_head
    intro c hc
    have hBne : B ≠ [] := by
      intro h0; rw [h0] at hc; simp at hc
    have hx : B.getLast? = some c := by rw [← List.head?_reverse]; exact hc
    have hlast : B.getLast? = A.getLast? := by
      rw [hB]; exact getLast?_dropWhile _ _ (hB ▸ hBne)
    have hAhead : (s.dropWhile isSpacePy).head? = some c := by
      have hAlast : A.getLast? = some c := by rw [← hlast]; exact hx
      rw [hA, List.getLast?_reverse] at hAlast
      exact hAlast
    exact head_dropWhile_false isSpacePy s c hAhead
  rw [h1, List.reverse_reverse]
  have h2 : B.dropWhile isSpacePy = B := by
    apply dropWhile_eq_self_of_head
    intro c hc
    exact head_dropWhile_false isSpacePy A c (hB ▸ hc)
  rw [h2]

/-- C1: whenever the (stripped) input contains a `{{{...}}}` marker whose
enclosed text has a word count between 2 and 8 inclusive, `extract_idiom`
returns a value produced by the bracket-marker stage — the cleaned enclosed
text when it passes the plausibility predicate, and the enclosed text itself
when it fails it — so the bracket-marker stage dominates the quoted stage and
every later stage of the cascade, whatever else (quotes included) the input
contains. -/
theorem C1_bracket_marker_dominates (text inner : Str)
    (hfind : findTripleBrace (pyStrip text) = some inner)
    (h2 : 2 ≤ wordCount (pyStrip inner)) (h8 : wordCount (pyStrip inner) ≤ 8) :
    extract_outcome text =
      (if is_likely_idiom (clean_extracted_idiom (pyStrip inner)) then
        ⟨clean_extracted_idiom (pyStrip inner), Stage.BRACKET_MARKER⟩
      else ⟨pyStrip inner, Stage.BRACKET_MARKER⟩) := by
  have hstrip : pyStrip text ≠ [] := by
    intro he
    rw [he] at hfind
    simp [findTripleBrace] at hfind
  have htext : text ≠ [] := by
    intro he
    apply hstrip
    rw [he]
    rfl
  have hinner : pyStrip inner ≠ [] := by
    intro he
    rw [he] at h2
    exact absurd h2 (by decide)
  unfold extract_outcome
  rw [if_neg]
  · unfold extractStage1
    rw [hfind]
    simp only
    rw [if_pos (by simpa using hinner)]
    by_cases hlik : is_likely_idiom (clean_extracted_idiom (pyStrip inner))
    · rw [if_pos hlik, if_pos hlik]
    · rw [if_neg hlik, if_neg hlik, if_pos ⟨h2, h8⟩, pyStrip_idem]
  · simp [List.isEmpty_iff, htext, hstrip]

/-- Witness for C1 at a concrete input holding both a quoted answer and a
bracket marker whose cleaned content fails the plausibility predicate: the
raw enclosed text is returned, not the quote. -/
theorem C1_bracket_marker_dominates_witness :
    extract_outcome (chars "See \"kick the bucket\" now \x7b\x7b\x7bthis idiom represents it\x7d\x7d\x7d") =
      ⟨chars "this idiom represents it", Stage.BRACKET_MARKER⟩ := by
  have h := C1_bracket_marker_dominates
    (chars "See \"kick the bucket\" now \x7b\x7b\x7bthis idiom represents it\x7d\x7d\x7d")
    (chars "this idiom represents it") (by decide) (by decide) (by decide)
  rw [h]
  decide

/-- C2 counterexample: the normalizer is not idempotent.  `normalize_idiom`
turns `"and"` into `"&"`, but a second application strips the `&` as edge
punctuation, giving the empty string. -/
theorem C2_not_idempotent_counterexample :
    normalize_idiom (normalize_idiom (chars "and")) ≠ normalize_idiom (chars "and") := by
  decide

/-- C3: extraction is total — `extract_outcome` is a total function that
always carries a `stage_used` tag — and on empty or whitespace-only input it
returns the empty extracted text with stage `FALLBACK_RAW`. -/
theorem C3_extract_total_fallback_raw (text : Str) (h : pyStrip text = []) :
    extract_outcome text = ⟨[], Stage.FALLBACK_RAW⟩ := by
  unfold extract_outcome
  rw [if_pos]
  simp [List.isEmpty_iff, h]

/-- Witness for C3 at a concrete whitespace-only input. -/
theorem C3_extract_total_fallback_raw_witness :
    extract_outcome (chars "  \t\n ") = ⟨[], Stage.FALLBACK_RAW⟩ :=
  C3_extract_total_fallback_raw (chars "  \t\n ") (by decide)

/-- C5 counterexample: on an empty batch `evaluate` does return without a
division error, but the `raw_accuracy` rate is NaN — scikit-learn's
`accuracy_score` takes the mean of an empty array — not the claimed 0. -/
theorem C5_empty_batch_counterexample :
    (evaluate [] true true false).map (dictGet (chars "raw_accuracy")) = .ok (some PyVal.nanv) ∧
      PyVal.nanv ≠ PyVal.float 0 ∧ PyVal.nanv ≠ PyVal.int 0 := by
  decide

/-- C5 amended: evaluating an empty batch raises no error and returns a
metrics report whose exact-match accuracy and macro F1 default to 0; its raw
accuracy, computed by scikit-learn's `accuracy_score`, is NaN rather than 0. -/
theorem C5_empty_batch_defaults :
    (evaluate [] true true false).map
        (fun m =>
          (dictGet (chars "exact_match_accuracy") m, dictGet (chars "macro_f1") m,
            dictGet (chars "raw_accuracy") m)) =
      .ok (some (PyVal.int 0), some (PyVal.float 0), some PyVal.nanv) := by
  decide

/-- C6 counterexample: on the spec's regression scenario the cascade does not
select the fuller phrase `"spill the beans"`; the keyword-intro stage matches
`"represents"` and, with no sentence boundary in the tail, captures the whole
remainder `"spill the beans, so spill beans"`, so the normalized exact match
against the ground truth `"spill the beans"` is false. -/
theorem C6_scenario2_counterexample :
    extract_idiom (chars "This rebus represents spill the beans, so spill beans") =
        chars "spill the beans, so spill beans" ∧
      normalize_idiom
          (extract_idiom (chars "This rebus represents spill the beans, so spill beans")) ≠
        normalize_idiom (chars "spill the beans") := by
  decide

/-- C6 amended: for the raw prediction
`"This rebus represents spill the beans, so spill beans"` the keyword-intro
stage fires and returns the entire tail after `"represents"` (group `(.+?)`
runs to the end of the string since no `.` occurs), and the sample's
exact_match after normalizing both sides is false, since the normalized
extraction keeps the `", so spill beans"` tail. -/
theorem C6_scenario2_keyword_intro_full_tail :
    extract_outcome (chars "This rebus represents spill the beans, so spill beans") =
        ⟨chars "spill the beans, so spill beans", Stage.KEYWORD_INTRO⟩ ∧
      normalize_idiom (chars "spill the beans, so spill beans") =
        chars "spill the beans, so spill beans" ∧
      normalize_idiom (chars "spill the beans") = chars "spill the beans" := by
  decide

/-- C8: the code accepts the four-character single word `"jump"` as a likely
idiom, although the spec and the repository's own test
(`src/test/test_extraction.py`, case `("jump", False)  # Single word, too
short`) say a single word under 8 characters must be rejected: the code's
only length floor is 3 characters and its word-count band `[1, 10]` admits
single words. -/
theorem C8_single_short_word_accepted :
    is_likely_idiom (chars "jump") = true ∧ wordCount (chars "jump") = 1 ∧
      (chars "jump").length < 8 := by
  decide

/-- Monadic bind on a raised `Except.error` keeps the error. -/
theorem except_error_bind {e a b : Type} (x : e) (f : a → Except e b) :
    (Except.error x : Except e a) >>= f = .error x := rfl

/-- Monadic bind on `Except.ok` applies the continuation. -/
theorem except_ok_bind {e a b : Type} (x : a) (f : a → Except e b) :
    (Except.ok x : Except e a) >>= f = f x := rfl

/-- A batch containing a record with a missing field makes the per-record
loop of `evaluate` raise a `KeyError`. -/
theorem evalLoop_error_of_missing (u d : Bool) :
    ∀ (rs : List SampleRec) (i : ℕ),
      (∃ r ∈ rs, r.ground_truth = none ∨ r.prediction = none) →
      ∃ e, evalLoop u d i rs = .error e := by
  intro rs
  induction rs with
  | nil => intro i h; obtain ⟨r, hr, _⟩ := h; simp at hr
  | cons r rs ih =>
    intro i h
    rcases hg : r.ground_truth with _ | gt
    · exact ⟨chars "KeyError: " ++ chars "ground_truth",
        by simp [evalLoop, fieldOr, hg, except_error_bind]⟩
    · rcases hp : r.prediction with _ | pred
      · exact ⟨chars "KeyError: " ++ chars "prediction",
          by simp [evalLoop, fieldOr, hg, hp, except_error_bind, except_ok_bind]⟩
      · obtain ⟨r2, hr2, hbad⟩ := h
        rcases List.mem_cons.mp hr2 with heq | hmem
        · subst heq
          rcases hbad with hb | hb
          · rw [hg] at hb; exact absurd hb (by simp)
          · rw [hp] at hb; exact absurd hb (by simp)
        · obtain ⟨e, he⟩ := ih (i + 1) ⟨r2, hmem, hbad⟩
          exact ⟨e, by simp [evalLoop, fieldOr, hg, hp, he, except_error_bind, except_ok_bind]⟩

/-- C4 counterexample: a single record missing `ground_truth` is not skipped
— `evaluate` raises a `KeyError` and the whole batch aborts. -/
theorem C4_missing_field_counterexample :
    evaluate [⟨none, none, some (chars "x")⟩] true true false =
      .error (chars "KeyError: ground_truth") := by
  decide

/-- C4 amended: a sample record missing the `ground_truth` or `prediction`
field makes `evaluate` raise a `KeyError`, aborting the whole batch; nothing
is skipped and no invalid-sample tally exists. -/
theorem C4_missing_field_raises (results : List SampleRec) (use_f1 use_extraction debug : Bool)
    (h : ∃ r ∈ results, r.ground_truth = none ∨ r.prediction = none) :
    ∃ e, evaluate results use_f1 use_extraction debug = .error e := by
  obtain ⟨e, he⟩ := evalLoop_error_of_missing use_extraction debug results 0 h
  exact ⟨e, by simp [evaluate, he, except_error_bind]⟩

/-- Witness for C4 at a concrete one-record batch missing `prediction`. -/
theorem C4_missing_field_raises_witness :
    ∃ e, evaluate [⟨none, some (chars "kick the bucket"), none⟩] true true false = .error e :=
  C4_missing_field_raises _ _ _ _ ⟨⟨none, some (chars "kick the bucket"), none⟩, by decide⟩

/-- The scoring rubric exactly as claim C7 words it: the `+10` and `+5`
word-count bonuses are independent additive rules (so a 3–6-word candidate
receives both), and the article rule asks for an article **word**. -/
def claimScore (c : Str) : ℕ :=
  (if 3 ≤ wordCount c ∧ wordCount c ≤ 6 then 10 else 0) +
    (if wordCount c ≤ 8 then 5 else 0) +
    (if !is_description_text c then 5 else 0) +
    (if chars "a" ∈ splitWs (lowerStr c) ∨ chars "an" ∈ splitWs (lowerStr c) ∨
        chars "the" ∈ splitWs (lowerStr c) then 2 else 0)

/-- C7 counterexample: with candidates
`A = "this idiom shows big dogs"` (5 words, description text, no article) and
`B = "dogs run to the big red house"` (7 words, not description, article),
the claim's rubric scores `A` strictly higher (15 over 12), yet the code
returns `B`: the code's word-count bonuses are mutually exclusive
(`if`/`elif`), so `A` only gets 10 + 0 + 0 = 10 against `B`'s 5 + 5 + 2 = 12. -/
theorem C7_scoring_counterexample :
    select_best_idiom_candidate
        [chars "this idiom shows big dogs", chars "dogs run to the big red house"] =
        chars "dogs run to the big red house" ∧
      claimScore (chars "this idiom shows big dogs") >
        claimScore (chars "dogs run to the big red house") ∧
      chars "dogs run to the big red house" ≠ chars "this idiom shows big dogs" := by
  decide

/-- The first-occurrence maximum of `scoreCandidate` over `c :: l`. -/
def firstMaxBy (c : Str) : List Str → Str
  | [] => c
  | d :: ds =>
    let m := firstMaxBy d ds
    if scoreCandidate c ≥ scoreCandidate m then c else m

/-- The candidate selection as amended claim C7 describes it: the sole
candidate if exactly one, otherwise the first candidate attaining the
maximal `scoreCandidate` value. -/
def specSelectBest : List Str → Str
  | [] => []
  | [c] => c
  | c :: d :: ds => firstMaxBy c (d :: ds)

/-- The first-occurrence maximum over scored pairs. -/
def pairMax (c : ℕ × Str) : List (ℕ × Str) → ℕ × Str
  | [] => c
  | d :: ds =>
    let m := pairMax d ds
    if m.1 ≤ c.1 then c else m

/-- The stable descending insertion sort starts with the first maximal
element. -/
theorem insertionSort_headD_pairMax :
    ∀ (l : List (ℕ × Str)) (c : ℕ × Str),
      (List.insertionSort (fun x y => y.1 ≤ x.1) (c :: l)).headD (0, []) = pairMax c l := by
  intro l
  induction l with
  | nil => intro c; rfl
  | cons d ds ih =>
    intro c
    have hne : List.insertionSort (fun x y => y.1 ≤ x.1) (d :: ds) ≠ [] := by
      intro h0
      have := congrArg List.length h0
      rw [List.length_insertionSort] at this
      simp at this
    rcases hs : List.insertionSort (fun x y => y.1 ≤ x.1) (d :: ds) with _ | ⟨z, zs⟩
    · exact absurd hs hne
    · have hz : z = pairMax d ds := by
        have := ih d
        rw [hs] at this
        simpa using this
      have h0 : List.insertionSort (fun x y => y.1 ≤ x.1) (c :: d :: ds) =
          List.orderedInsert (fun x y => y.1 ≤ x.1) c
            (List.insertionSort (fun x y => y.1 ≤ x.1) (d :: ds)) := rfl
      rw [h0, hs]
      simp only [List.orderedInsert]
      split_ifs with hc
      · simp [pairMax, ← hz, hc]
      · simp [pairMax, ← hz, hc]

/-- Lemma: `pairMax` over scored pairs mirrors `firstMaxBy` over candidates. -/
theorem pairMax_map (l : List Str) :
    ∀ c : Str,
      pairMax (scoreCandidate c, c) (l.map fun x => (scoreCandidate x, x)) =
        (scoreCandidate (firstMaxBy c l), firstMaxBy c l) := by
  induction l with
  | nil => intro c; rfl
  | cons d ds ih =>
    intro c
    simp only [List.map_cons, pairMax, firstMaxBy, ih d]
    by_cases h : scoreCandidate (firstMaxBy d ds) ≤ scoreCandidate c
    · rw [if_pos h, if_pos h]
    · rw [if_neg h, if_neg h]

/-- C7 amended: the candidate scorer returns the sole candidate when given
exactly one; otherwise each candidate scores +10 if its word count is 3–6,
else +5 if its word count is at most 8, else 0 (the two bonuses are mutually
exclusive), plus 5 if not classified as description, plus 2 if it contains
`"a"`, `"an"` or `"the"` as a substring; the first candidate attaining the
maximal score is returned, so the result is deterministic. -/
theorem C7_select_first_argmax (cands : List Str) :
    select_best_idiom_candidate cands = specSelectBest cands := by
  match cands with
  | [] => rfl
  | [c] => rfl
  | c :: d :: ds =>
    show ((List.insertionSort (fun x y : ℕ × Str => y.1 ≤ x.1)
        ((c :: d :: ds).map fun x => (scoreCandidate x, x))).headD (0, [])).2 =
      firstMaxBy c (d :: ds)
    rw [List.map_cons, insertionSort_headD_pairMax, pairMax_map]

/-- C9 counterexample: on a 2-sample batch with one helped and one hurt
sample, the metrics report of `evaluate` contains no extraction-impact
counts: its exact key list has no `helped`, `hurt` or `extraction_impact`
entry of any kind. -/
theorem C9_no_impact_counts_counterexample :
    (evaluate [helpedSample, hurtSample] true true false).map
        (fun m =>
          (m.map Prod.fst, dictGet (chars "helped") m, dictGet (chars "hurt") m,
            dictGet (chars "extraction_impact") m)) =
      .ok
        ([chars "total_samples", chars "exact_matches", chars "exact_match_accuracy",
          chars "raw_accuracy", chars "extraction_enabled",
          chars "exact_match_accuracy_formatted", chars "raw_accuracy_formatted",
          chars "raw_exact_matches", chars "raw_exact_match_accuracy",
          chars "extraction_improvement", chars "raw_exact_match_accuracy_formatted",
          chars "extraction_improvement_formatted", chars "macro_f1",
          chars "macro_f1_formatted"], none, none, none) := by
  decide

/-- C9 amended: the helped/hurt tallies live in `debug_results.py`, not in
`evaluate`'s metrics report: running `debug_extraction_for_sample` over the
batch of 2 samples (one helped, one hurt) and aggregating with
`analyze_extraction_performance` yields `extraction_helped_count = 1` and
`extraction_hurt_count = 1`, while `evaluate`'s report only carries the rate
difference `extraction_improvement` (here 0). -/
theorem C9_impact_counts_in_debug_results :
    ((do
        let d1 ← debug_extraction_for_sample helpedSample 0
        let d2 ← debug_extraction_for_sample hurtSample 1
        pure (analyze_extraction_performance [d1, d2]) : Except Str AnalysisReport)).map
        (fun a => (a.extraction_helped_count, a.extraction_hurt_count)) =
      Except.ok ((1 : ℕ), (1 : ℕ)) ∧
    (evaluate [helpedSample, hurtSample] true true false).map
        (fun m => (m.map Prod.fst).contains (chars "extraction_improvement")) = .ok true := by
  constructor
  · decide
  · decide

/-- The harmonic-mean combination is symmetric in its two rates. -/
theorem harmonic_symm (x y : ℚ) :
    (if x + y = 0 then (0 : ℚ) else 2 * (x * y) / (x + y)) =
      (if y + x = 0 then (0 : ℚ) else 2 * (y * x) / (y + x)) := by
  rw [add_comm x y, mul_comm x y]

/-- C10: the per-sample token F1 is symmetric in its two arguments: tokens
are compared as sets, so swapping the arguments swaps precision and recall
while the intersection and the harmonic mean are unchanged. -/
theorem C10_token_f1_symmetric (a b : Str) :
    calculate_token_f1 a b = calculate_token_f1 b a := by
  unfold calculate_token_f1
  by_cases hg : tokenizeForF1 a = ∅ <;> by_cases hp : tokenizeForF1 b = ∅
  · simp [hg, hp]
  · simp [hg, hp]
  · simp [hg, hp]
  · have hcard : (tokenizeForF1 b ∩ tokenizeForF1 a).card =
        (tokenizeForF1 a ∩ tokenizeForF1 b).card := by rw [Finset.inter_comm]
    have h1 : ¬(tokenizeForF1 a = ∅ ∧ tokenizeForF1 b = ∅) := fun h => hg h.1
    have h2 : ¬(tokenizeForF1 a = ∅ ∨ tokenizeForF1 b = ∅) := fun h => h.elim hg hp
    have h3 : ¬(tokenizeForF1 b = ∅ ∧ tokenizeForF1 a = ∅) := fun h => hp h.1
    have h4 : ¬(tokenizeForF1 b = ∅ ∨ tokenizeForF1 a = ∅) := fun h => h.elim hp hg
    simp only [if_neg h1, if_neg h2, if_neg h3, if_neg h4, if_pos hp, if_pos hg, hcard]
    exact harmonic_symm _ _

/-- A lowercase ASCII letter. -/
def isLowerAlpha (c : Char) : Bool := c.isLower

/-- A lowercase letter is a word character. -/
theorem alpha_word {c : Char} (h : isLowerAlpha c = true) : isWordChar c = true := by
  simp only [isLowerAlpha] at h
  simp [isWordChar, Char.isAlphanum, Char.isAlpha, h]

/-- A lowercase letter is not whitespace. -/
theorem alpha_not_space {c : Char} (h : isLowerAlpha c = true) : isSpacePy c = false := by
  cases hsp : isSpacePy c
  · rfl
  · exfalso
    simp only [isSpacePy, Bool.or_eq_true, decide_eq_true_eq] at hsp
    rcases hsp with ((((h' | h') | h') | h') | h') | h' <;> subst h' <;>
      exact absurd h (by decide)

/-- A lowercase letter differs from any character that is not one. -/
theorem alpha_ne {c x : Char} (h : isLowerAlpha c = true) (hx : isLowerAlpha x = false) :
    c ≠ x := by
  intro he
  rw [he, hx] at h
  cases h

/-- Whitespace is not a word character. -/
theorem space_not_word {c : Char} (h : isSpacePy c = true) : isWordChar c = false := by
  simp only [isSpacePy, Bool.or_eq_true, decide_eq_true_eq] at h
  rcases h with ((((h' | h') | h') | h') | h') | h' <;> subst h' <;> decide

/-- The words of a phrase, with their goodness conditions. -/
def GoodWs (ws : List Str) : Prop :=
  ws ≠ [] ∧ ∀ w ∈ ws, w ≠ [] ∧ ∀ c ∈ w, isLowerAlpha c = true

theorem joinWords_cons (w v : Str) (vs : List Str) :
    joinWords (w :: v :: vs) = w ++ ' ' :: joinWords (v :: vs) := rfl

/-- A join of nonempty words is nonempty. -/
theorem joinWords_ne_nil {ws : List Str} (h1 : ws ≠ []) (h2 : ∀ w ∈ ws, w ≠ []) :
    joinWords ws ≠ [] := by
  match ws with
  | [] => exact absurd rfl h1
  | [w] => exact h2 w (by simp)
  | w :: v :: vs =>
    rw [joinWords_cons]
    have := h2 w (by simp)
    intro hc
    rcases List.append_eq_nil.mp hc with ⟨hw, _⟩
    exact this hw

/-- Every character of a join of good words is a letter or a space. -/
theorem mem_joinWords {ws : List Str} (h : GoodWs ws) :
    ∀ c ∈ joinWords ws, isLowerAlpha c = true ∨ c = ' ' := by
  obtain ⟨-, h2⟩ := h
  induction ws with
  | nil => intro c hc; simp [joinWords] at hc
  | cons w vs ih =>
    intro c hc
    match vs, hc with
    | [], hc =>
      exact Or.inl ((h2 w (by simp)).2 c hc)
    | v :: vs', hc =>
      rw [joinWords_cons] at hc
      rcases List.mem_append.mp hc with hm | hm
      · exact Or.inl ((h2 w (by simp)).2 c hm)
      · rcases List.mem_cons.mp hm with hm | hm
        · exact Or.inr hm
        · exact ih (fun u hu => h2 u (by simp [hu])) c hm

/-- The first character of a join of good words is a letter. -/
theorem head_joinWords_alpha {ws : List Str} (h : GoodWs ws) :
    ∀ c, (joinWords ws).head? = some c → isLowerAlpha c = true := by
  obtain ⟨h1, h2⟩ := h
  intro c hc
  match ws with
  | [] => exact absurd rfl h1
  | w :: vs =>
    obtain ⟨hne, hal⟩ := h2 w (by simp)
    match w, hne with
    | d :: ds, _ =>
      have hd : (joinWords ((d :: ds) :: vs)).head? = some d := by
        match vs with
        | [] => rfl
        | v :: vs' => rw [joinWords_cons]; rfl
      rw [hd] at hc
      cases hc
      exact hal c (by simp)

/-- The last character of a join of good words is a letter. -/
theorem getLast_joinWords_alpha {ws : List Str} (h : GoodWs ws) :
    ∀ c, (joinWords ws).getLast? = some c → isLowerAlpha c = true := by
  obtain ⟨h1, h2⟩ := h
  induction ws with
  | nil => exact absurd rfl h1
  | cons w vs ih =>
    intro c hc
    match vs with
    | [] =>
      obtain ⟨hne, hal⟩ := h2 w (by simp)
      have : c ∈ w := by
        rw [show joinWords [w] = w from rfl] at hc
        obtain ⟨hne', heq⟩ :=
          List.mem_getLast?_eq_getLast (x := c) (by rw [hc]; rfl)
        rw [heq]
        exact List.getLast_mem hne' 
      exact hal c this
    | v :: vs' =>
      rw [joinWords_cons] at hc
      have hne' : joinWords (v :: vs') ≠ [] :=
        joinWords_ne_nil (by simp) (fun u hu => (h2 u (by simp [hu])).1)
      rw [List.getLast?_append_of_ne_nil _ (by simp)] at hc
      have : (' ' :: joinWords (v :: vs')).getLast? = (joinWords (v :: vs')).getLast? := by
        have : ' ' :: joinWords (v :: vs') = [' '] ++ joinWords (v :: vs') := rfl
        rw [this, List.getLast?_append_of_ne_nil _ hne']
      rw [this] at hc
      exact ih (by simp) (fun u hu => h2 u (by simp [hu])) c hc

/-- Lower-casing fixes a string of lowercase letters and spaces. -/
theorem lowerStr_fix {s : Str} (h : ∀ c ∈ s, isLowerAlpha c = true ∨ c = ' ') :
    lowerStr s = s := by
  induction s with
  | nil => rfl
  | cons c cs ih =>
    have hc : c.toLower = c := by
      rcases h c (by simp) with hc | hc
      · simp only [isLowerAlpha, Char.isLower] at hc
        simp only [Bool.and_eq_true, decide_eq_true_eq] at hc
        have h97 : (97 : ℕ) ≤ c.toNat := by
          have := UInt32.le_def.mp hc.1
          simpa using this
        rw [Char.toLower, if_neg]
        intro hup
        omega
      · subst hc; rfl
    simp only [lowerStr, List.map_cons]
    rw [hc]
    have := ih (fun d hd => h d (by simp [hd]))
    simp only [lowerStr] at this
    rw [this]

/-- Lemma: `pyStrip` fixes a string whose first and last characters are not
whitespace. -/
theorem pyStrip_fix {s : Str} (hh : ∀ c, s.head? = some c → isSpacePy c = false)
    (hl : ∀ c, s.getLast? = some c → isSpacePy c = false) : pyStrip s = s := by
  unfold pyStrip
  rw [dropWhile_eq_self_of_head _ _ hh]
  rw [dropWhile_eq_self_of_head _ _ (by
    intro c hc
    apply hl
    rwa [List.head?_reverse] at hc)]
  exact List.reverse_reverse s

/-- A lowercase letter is not edge punctuation. -/
theorem alpha_not_edge {c : Char} (h : isLowerAlpha c = true) : isEdgePunct c = false := by
  simp [isEdgePunct, alpha_word h]

/-- Lemma: `collapseWsGo` passes over a run of letters unchanged. -/
theorem collapseWsGo_word (w : Str) :
    ∀ rest : Str, (∀ c ∈ w, isLowerAlpha c = true) →
      collapseWsGo false (w ++ rest) = w ++ collapseWsGo false rest := by
  induction w with
  | nil => intro rest h; rfl
  | cons c cs ih =>
    intro rest h
    have hsp := alpha_not_space (h c (by simp))
    simp only [List.cons_append, collapseWsGo, hsp, Bool.false_eq_true, if_false,
      List.append_eq]
    rw [ih rest (fun d hd => h d (by simp [hd]))]

/-- After the replacement space was emitted, a non-space head leaves the
run state. -/
theorem collapseWsGo_true_head (s : Str) (h : ∀ c, s.head? = some c → isSpacePy c = false) :
    collapseWsGo true s = collapseWsGo false s := by
  cases s with
  | nil => rfl
  | cons c cs => simp [collapseWsGo, h c rfl]

/-- Whitespace collapsing fixes a join of good words. -/
theorem collapse_join : ∀ ws : List Str, GoodWs ws → collapseWs (joinWords ws) = joinWords ws := by
  intro ws
  induction ws with
  | nil => intro hg; exact absurd rfl hg.1
  | cons w vs ih =>
    intro hg
    obtain ⟨-, hww⟩ := hg
    obtain ⟨hwne, hwal⟩ := hww w (by simp)
    match vs with
    | [] =>
      show collapseWsGo false w = w
      have := collapseWsGo_word w [] hwal
      simpa [collapseWsGo] using this
    | v :: vs' =>
      rw [joinWords_cons]
      show collapseWsGo false (w ++ ' ' :: joinWords (v :: vs')) = _
      rw [collapseWsGo_word w (' ' :: joinWords (v :: vs')) hwal]
      congr 1
      have h1 : collapseWsGo false (' ' :: joinWords (v :: vs')) =
          ' ' :: collapseWsGo true (joinWords (v :: vs')) := by
        have hsp : isSpacePy ' ' = true := by decide
        simp [collapseWsGo, hsp]
      have hgood : GoodWs (v :: vs') := ⟨by simp, fun u hu => hww u (by simp [hu])⟩
      rw [h1, collapseWsGo_true_head _
        (fun c hc => alpha_not_space (head_joinWords_alpha hgood c hc))]
      rw [show collapseWsGo false (joinWords (v :: vs')) = collapseWs (joinWords (v :: vs'))
        from rfl]
      rw [ih hgood]

/-- Edge-punctuation stripping fixes a string whose first and last
characters are letters. -/
theorem stripEdgePunct_fix {s : Str}
    (hh : ∀ c, s.head? = some c → isEdgePunct c = false)
    (hl : ∀ c, s.getLast? = some c → isEdgePunct c = false ∧ c ≠ '\n') :
    stripEdgePunct s = s := by
  have ha : s.dropWhile isEdgePunct = s := dropWhile_eq_self_of_head _ _ hh
  unfold stripEdgePunct
  rw [ha]
  cases hLast : s.getLast? with
  | none => rfl
  | some c =>
    show (if c = '\n' then rstripRun isEdgePunct s.dropLast ++ ['\n']
      else rstripRun isEdgePunct s) = s
    rw [if_neg (hl c hLast).2]
    unfold rstripRun
    rw [dropWhile_eq_self_of_head _ _ (by
      intro d hd
      rw [List.head?_reverse] at hd
      exact (hl d hd).1)]
    exact List.reverse_reverse s

/-- The word scanner on the empty string, at any fuel. -/
theorem subWordGo_nil (p : Char) (ps rep : Str) (fuel : ℕ) (prev : Option Char) :
    subWordGo p ps rep fuel prev [] = [] := by
  cases fuel <;> rfl

/-- If an all-letter pattern matches as a prefix of `w ++ rest` — where `w`
is all letters and `rest` opens with a non-word character (or is empty) —
and a `\b` boundary follows the match, then the pattern is exactly `w`. -/
theorem pat_eq_word : ∀ (pat w rest : Str),
    (∀ c ∈ pat, isLowerAlpha c = true) → (∀ c ∈ w, isLowerAlpha c = true) →
    (rest = [] ∨ boundaryR rest = true) →
    startsWithStr pat (w ++ rest) = true →
    boundaryR ((w ++ rest).drop pat.length) = true →
    pat = w := by
  intro pat
  induction pat with
  | nil =>
    intro w rest hp hw hrest hpre hbnd
    cases w with
    | nil => rfl
    | cons d w' =>
      exfalso
      simp only [List.length_nil, List.drop_zero, List.cons_append] at hbnd
      have hb : boundaryR (d :: (w' ++ rest)) = !isWordChar d := rfl
      rw [hb, alpha_word (hw d (by simp))] at hbnd
      simp at hbnd
  | cons q qs ih =>
    intro w rest hp hw hrest hpre hbnd
    cases w with
    | nil =>
      exfalso
      simp only [List.nil_append] at hpre hbnd
      cases rest with
      | nil => simp [startsWithStr, List.isPrefixOf] at hpre
      | cons r rs =>
        rcases hrest with h0 | hb
        · simp at h0
        · have hqr : q = r := by
            simp only [startsWithStr, List.isPrefixOf, Bool.and_eq_true, beq_iff_eq] at hpre
            exact hpre.1
          have hrw : isWordChar r = false := by
            have : boundaryR (r :: rs) = !isWordChar r := rfl
            rw [this] at hb
            simpa using hb
          have hqw := alpha_word (hp q (by simp))
          rw [hqr, hrw] at hqw
          cases hqw
    | cons d w' =>
      have hqd : q = d ∧ startsWithStr qs (w' ++ rest) = true := by
        simpa [startsWithStr, List.isPrefixOf] using hpre
      have hdrop : ((d :: w') ++ rest).drop (q :: qs).length = (w' ++ rest).drop qs.length := by
        simp
      rw [hdrop] at hbnd
      have := ih w' rest (fun c hc => hp c (by simp [hc])) (fun c hc => hw c (by simp [hc]))
        hrest hqd.2 hbnd
      rw [hqd.1, this]

/-- Scanning the interior of a word: the character before the scan position
is a word character, so the left `\b` fails at every position and the word
passes through unchanged. -/
theorem subWordGo_inWord (p : Char) (ps rep : Str) : ∀ (w rest : Str) (fuel : ℕ) (pc : Char),
    isWordChar pc = true → (∀ c ∈ w, isLowerAlpha c = true) →
    (∀ fuel2 prev2, subWordGo p ps rep fuel2 prev2 rest = rest) →
    subWordGo p ps rep fuel (some pc) (w ++ rest) = w ++ rest := by
  intro w
  induction w with
  | nil => intro rest fuel pc hpc hw hrest; simpa using hrest fuel (some pc)
  | cons c w' ih =>
    intro rest fuel pc hpc hw hrest
    cases fuel with
    | zero => rfl
    | succ fuel =>
      rw [List.cons_append]
      show subWordGo p ps rep (fuel + 1) (some pc) (c :: (w' ++ rest)) = _
      have hbl : boundaryL (some pc) = false := by simp [boundaryL, hpc]
      simp only [subWordGo, hbl, Bool.false_and, Bool.false_eq_true, if_false]
      rw [ih rest fuel c (alpha_word (hw c (by simp))) (fun d hd => hw d (by simp [hd])) hrest]

/-- Scanning from the start of a word that is not the pattern: no match can
fire inside `w`, so the word passes through unchanged, whatever precedes. -/
theorem subWordGo_atWord (p : Char) (ps rep : Str)
    (hpat : ∀ c ∈ p :: ps, isLowerAlpha c = true) :
    ∀ (w rest : Str) (fuel : ℕ) (prev : Option Char),
      w ≠ [] → (∀ c ∈ w, isLowerAlpha c = true) → w ≠ p :: ps →
      (rest = [] ∨ boundaryR rest = true) →
      (∀ fuel2 prev2, subWordGo p ps rep fuel2 prev2 rest = rest) →
      subWordGo p ps rep fuel prev (w ++ rest) = w ++ rest := by
  intro w rest fuel prev hne hw hnp hrest hrid
  match w, hne with
  | c :: w', _ =>
    cases fuel with
    | zero => rfl
    | succ fuel =>
      rw [List.cons_append]
      show subWordGo p ps rep (fuel + 1) prev (c :: (w' ++ rest)) = _
      have hcond : (boundaryL prev && startsWithStr (p :: ps) (c :: (w' ++ rest)) &&
          boundaryR ((c :: (w' ++ rest)).drop (ps.length + 1))) = false := by
        by_contra hcon
        rw [Bool.not_eq_false] at hcon
        simp only [Bool.and_eq_true] at hcon
        obtain ⟨⟨hbl, hpre⟩, hbnd⟩ := hcon
        have heq := pat_eq_word (p :: ps) (c :: w') rest hpat hw hrest
          (by rw [List.cons_append]; exact hpre)
          (by rw [List.cons_append]; simpa using hbnd)
        exact hnp heq.symm
      simp only [subWordGo, hcond, Bool.false_eq_true, if_false]
      rw [subWordGo_inWord p ps rep w' rest fuel c (alpha_word (hw c (by simp)))
        (fun d hd => hw d (by simp [hd])) hrid]

/-- The whole-word substitution scanner fixes a join of good words none of
which is the pattern, at any fuel and with any previous character. -/
theorem subWordGo_join (p : Char) (ps rep : Str)
    (hpat : ∀ c ∈ p :: ps, isLowerAlpha c = true) :
    ∀ ws : List Str,
      (∀ w ∈ ws, w ≠ [] ∧ (∀ c ∈ w, isLowerAlpha c = true) ∧ w ≠ p :: ps) →
      ∀ (fuel : ℕ) (prev : Option Char),
        subWordGo p ps rep fuel prev (joinWords ws) = joinWords ws := by
  intro ws
  induction ws with
  | nil => intro h fuel prev; exact subWordGo_nil p ps rep fuel prev
  | cons w vs ih =>
    intro h fuel prev
    obtain ⟨hwne, hwal, hwnp⟩ := h w (by simp)
    match vs with
    | [] =>
      have := subWordGo_atWord p ps rep hpat w [] fuel prev hwne hwal hwnp (Or.inl rfl)
        (fun f2 p2 => subWordGo_nil p ps rep f2 p2)
      simpa using this
    | v :: vs' =>
      rw [joinWords_cons]
      apply subWordGo_atWord p ps rep hpat w (' ' :: joinWords (v :: vs')) fuel prev hwne hwal
        hwnp
      · exact Or.inr (by show (!isWordChar ' ') = true; decide)
      · intro f2 p2
        cases f2 with
        | zero => rfl
        | succ f2 =>
          have hsw : startsWithStr (p :: ps) (' ' :: joinWords (v :: vs')) = false := by
            have hp' : p ≠ ' ' := alpha_ne (hpat p (by simp)) (by decide)
            simp [startsWithStr, List.isPrefixOf, hp']
          simp only [subWordGo, hsw, Bool.and_false, Bool.false_and, Bool.false_eq_true,
            if_false]
          congr 1
          exact ih (fun u hu => h u (by simp [hu])) f2 (some ' ')

/-- Implements the claim that `re.sub(r"\b<pat>\b", ...)` fixes a join of good words none of which is
the all-letter pattern. -/
theorem subWord_fix (pat rep : Str) (hal : ∀ c ∈ pat, isLowerAlpha c = true)
    (ws : List Str)
    (h : ∀ w ∈ ws, w ≠ [] ∧ (∀ c ∈ w, isLowerAlpha c = true) ∧ w ≠ pat) :
    subWord pat rep (joinWords ws) = joinWords ws := by
  match pat with
  | [] => rfl
  | p :: ps => exact subWordGo_join p ps rep hal ws h (joinWords ws).length none

/-- The separator scanner is the identity (emitting its pending buffer) on a
string containing no separator. -/
theorem subSepGo_no_sep (sep : Char) : ∀ s : Str, sep ∉ s →
    ∀ buf : Str, subSepGo sep buf false s = buf ++ s := by
  intro s
  induction s with
  | nil => intro h buf; simp [subSepGo]
  | cons c cs ih =>
    intro h buf
    have hcs : sep ∉ cs := fun hm => h (by simp [hm])
    have hc : ¬(c = sep) := fun he => h (by simp [he])
    by_cases hsp : isSpacePy c
    · have : subSepGo sep buf false (c :: cs) = subSepGo sep (buf ++ [c]) false cs := by
        simp [subSepGo, hsp]
      rw [this, ih hcs (buf ++ [c])]
      simp
    · have : subSepGo sep buf false (c :: cs) = buf ++ c :: subSepGo sep [] false cs := by
        simp [subSepGo, hsp, hc]
      rw [this, ih hcs []]
      simp

/-- The dash/underscore rule fixes a string without its separator. -/
theorem subSep_fix (sep : Char) (s : Str) (h : sep ∉ s) : subSep sep s = s := by
  simpa using subSepGo_no_sep sep s h []

/-- One article alternative fails on a phrase whose first word is not that
article: a match would need whitespace right after the article prefix, which
by `pat_eq_word` would force the first word to equal the article. -/
theorem stripArticleOne_none (art : Str) (hal : ∀ c ∈ art, isLowerAlpha c = true)
    (w rest : Str) (hw : ∀ c ∈ w, isLowerAlpha c = true)
    (hrest : rest = [] ∨ boundaryR rest = true) (hnw : art ≠ w) :
    stripArticleOne art (w ++ rest) = none := by
  unfold stripArticleOne
  by_cases hpre : startsWithStr art (w ++ rest) = true
  · rw [if_pos hpre]
    cases hdrop : (w ++ rest).drop art.length with
    | nil => rfl
    | cons c cs =>
      by_cases hsp : isSpacePy c
      · exfalso
        have hbnd : boundaryR ((w ++ rest).drop art.length) = true := by
          rw [hdrop]
          show (!isWordChar c) = true
          rw [space_not_word hsp]
          rfl
        exact hnw (pat_eq_word art w rest hal hw hrest hpre hbnd)
      · simp [hsp]
  · rw [if_neg hpre]

/-- The leading-article strip fixes a join of good words whose first word is
not an article. -/
theorem stripLeadingArticle_fix (w : Str) (vs : List Str) (hg : GoodWs (w :: vs))
    (ha : w ≠ chars "a") (han : w ≠ chars "an") (hthe : w ≠ chars "the") :
    stripLeadingArticle (joinWords (w :: vs)) = joinWords (w :: vs) := by
  obtain ⟨-, hww⟩ := hg
  obtain ⟨hwne, hwal⟩ := hww w (by simp)
  have key : ∀ art : Str, (∀ c ∈ art, isLowerAlpha c = true) → art ≠ w →
      stripArticleOne art (joinWords (w :: vs)) = none := by
    intro art hal hnw
    match vs with
    | [] =>
      have := stripArticleOne_none art hal w [] hwal (Or.inl rfl) hnw
      simpa using this
    | v :: vs' =>
      rw [joinWords_cons]
      exact stripArticleOne_none art hal w (' ' :: joinWords (v :: vs')) hwal
        (Or.inr (by show (!isWordChar ' ') = true; decide)) hnw
  unfold stripLeadingArticle
  rw [key (chars "a") (by decide) (fun he => ha he.symm)]
  rw [key (chars "an") (by decide) (fun he => han he.symm)]
  rw [key (chars "the") (by decide) (fun he => hthe he.symm)]

/-- Lemma: `normalize_idiom` fixes a join of good words avoiding the rewrite words
`and`/`u`/`r`, with a non-article first word. -/
theorem normalize_fix (ws : List Str) (hg : GoodWs ws)
    (hnot : ∀ w ∈ ws, w ≠ chars "and" ∧ w ≠ chars "u" ∧ w ≠ chars "r")
    (hart : ∀ w, ws.head? = some w → w ≠ chars "a" ∧ w ≠ chars "an" ∧ w ≠ chars "the") :
    normalize_idiom (joinWords ws) = joinWords ws := by
  obtain ⟨hne, hww⟩ := hg
  have hJne : joinWords ws ≠ [] := joinWords_ne_nil hne (fun w hw => (hww w hw).1)
  have hmem : ∀ c ∈ joinWords ws, isLowerAlpha c = true ∨ c = ' ' :=
    mem_joinWords ⟨hne, hww⟩
  have hhead : ∀ c, (joinWords ws).head? = some c → isLowerAlpha c = true :=
    head_joinWords_alpha ⟨hne, hww⟩
  have hlast : ∀ c, (joinWords ws).getLast? = some c → isLowerAlpha c = true :=
    getLast_joinWords_alpha ⟨hne, hww⟩
  have hnsep : ∀ sep : Char, isLowerAlpha sep = false → sep ≠ ' ' → sep ∉ joinWords ws := by
    intro sep hs hs' hm
    rcases hmem sep hm with h | h
    · rw [h] at hs; cases hs
    · exact hs' h
  have hstrip : pyStrip (joinWords ws) = joinWords ws :=
    pyStrip_fix (fun c hc => alpha_not_space (hhead c hc))
      (fun c hc => alpha_not_space (hlast c hc))
  have hwordconds : ∀ pat : Str,
      (∀ w ∈ ws, w ≠ pat) →
      ∀ w ∈ ws, w ≠ [] ∧ (∀ c ∈ w, isLowerAlpha c = true) ∧ w ≠ pat := by
    intro pat hp w hw
    exact ⟨(hww w hw).1, (hww w hw).2, hp w hw⟩
  show (if (joinWords ws).isEmpty then [] else
    pyStrip (stripLeadingArticle (subSep '_' (subSep '-'
      (subWord (chars "r") (chars "are") (subWord (chars "u") (chars "you")
        (subWord (chars "and") (chars "&")
          (stripEdgePunct (collapseWs (pyStrip (lowerStr (joinWords ws)))))))))))) =
    joinWords ws
  rw [if_neg (by simpa [List.isEmpty_iff] using hJne)]
  rw [lowerStr_fix hmem, hstrip, collapse_join ws ⟨hne, hww⟩]
  rw [stripEdgePunct_fix (fun c hc => alpha_not_edge (hhead c hc))
    (fun c hc => ⟨alpha_not_edge (hlast c hc), alpha_ne (hlast c hc) (by decide)⟩)]
  rw [subWord_fix (chars "and") (chars "&") (by decide) ws
    (hwordconds _ (fun w hw => (hnot w hw).1))]
  rw [subWord_fix (chars "u") (chars "you") (by decide) ws
    (hwordconds _ (fun w hw => (hnot w hw).2.1))]
  rw [subWord_fix (chars "r") (chars "are") (by decide) ws
    (hwordconds _ (fun w hw => (hnot w hw).2.2))]
  rw [subSep_fix '-' _ (hnsep '-' (by decide) (by decide))]
  rw [subSep_fix '_' _ (hnsep '_' (by decide) (by decide))]
  match ws, hne with
  | w :: vs, _ =>
    obtain ⟨h1, h2, h3⟩ := hart w rfl
    rw [stripLeadingArticle_fix w vs ⟨by simp, hww⟩ h1 h2 h3]
    exact hstrip

/-- C2 amended: the normalizer is idempotent at every input whose normalized
form is a nonempty single-space-separated sequence of nonempty
lowercase-alphabetic words, none of which is `and`, `u` or `r`, and whose
first word is not `a`, `an` or `the` (a second application strips further on
the remaining inputs, e.g. a leading article of the normal form or an `&`
left at an edge). -/
theorem C2_normalize_idempotent_on_word_phrases (x : Str) (ws : List Str)
    (hg : GoodWs ws)
    (hnot : ∀ w ∈ ws, w ≠ chars "and" ∧ w ≠ chars "u" ∧ w ≠ chars "r")
    (hart : ∀ w, ws.head? = some w → w ≠ chars "a" ∧ w ≠ chars "an" ∧ w ≠ chars "the")
    (hx : normalize_idiom x = joinWords ws) :
    normalize_idiom (normalize_idiom x) = normalize_idiom x := by
  rw [hx]
  exact normalize_fix ws hg hnot hart

/-- Witness for amended C2 at `"Spill The  Beans!"`, whose normal form is
`"spill the beans"`. -/
theorem C2_normalize_idempotent_on_word_phrases_witness :
    normalize_idiom (normalize_idiom (chars "Spill The  Beans!")) =
      normalize_idiom (chars "Spill The  Beans!") :=
  C2_normalize_idempotent_on_word_phrases (chars "Spill The  Beans!")
    [chars "spill", chars "the", chars "beans"]
    ⟨by decide, by decide⟩ (by decide) (by decide) (by decide)
